import Mathlib

/-!
Verification development for the dynamic resource-typing core of a
Kubernetes-style client library.  The definitions below are a shallow
embedding of the Rust sources
src/kube/src/api/dynamic.rs and
src/kube/src/client/discovery/resource_details.rs.
Panics in the source ( unreachable in from_apiresource, expect in
from_apiresourcelist) are embedded as Option.none; all other code is
embedded directly.
-/

set_option autoImplicit false

namespace KubeDyn

/-- Resource scope.  Both Rust files declare an identical enum Scope;
one Lean definition stands for both. -/
inductive Scope where
  | Cluster
  | Namespaced
deriving DecidableEq, Repr

/-- Operations that are supported on the resource.  Both Rust files declare
an identical struct Operations; one Lean definition stands for both. -/
structure Operations where
  create : Bool
  get : Bool
  list : Bool
  watch : Bool
  delete : Bool
  delete_collection : Bool
  update : Bool
  patch : Bool
  other : List String
deriving DecidableEq, Repr

/-- Operations::empty. -/
def Operations.empty : Operations :=
  { create := false
    get := false
    list := false
    watch := false
    delete := false
    delete_collection := false
    update := false
    patch := false
    other := [] }

/-- The discovery record meta::v1::APIResource (external dependency
k8s_openapi); only the fields the embedded code reads are modelled. -/
structure APIResource where
  group : Option String
  kind : String
  name : String
  namespaced : Bool
  verbs : List String
  version : Option String
deriving DecidableEq, Repr

/-- meta::v1::APIResourceList (external dependency k8s_openapi); only the
fields the embedded code reads are modelled. -/
structure APIResourceList where
  group_version : String
  resources : List APIResource
deriving DecidableEq, Repr

/-- struct ApiResource from dynamic.rs. -/
structure ApiResource where
  group : String
  version : String
  api_version : String
  kind : String
  plural_name : String
  scope : Scope
  subresources : List String
  operations : Operations
deriving DecidableEq, Repr

/-- GroupVersionKind (declared in api/metadata.rs, outside the analyzed
source); only the three fields read by from_gvk are modelled. -/
structure GroupVersionKind where
  group : String
  version : String
  kind : String
deriving DecidableEq, Repr

/-- Splits a character list at the first occurrence of c: returns the part
before and the part after, or none when c does not occur. -/
def splitFirstAux (c : Char) : List Char → Option (List Char × List Char)
  | [] => none
  | x :: xs =>
    if x = c then some ([], xs)
    else (splitFirstAux c xs).map (fun p => (x :: p.1, p.2))

/-- Rust str::splitn(2, c) collected into a vector: one piece when c does
not occur, otherwise the part before the first c and the whole rest. -/
def splitn2 (s : String) (c : Char) : List String :=
  match splitFirstAux c s.data with
  | none => [s]
  | some (a, b) => [String.mk a, String.mk b]

/-- One step of the verb loop shared by ApiResource::from_apiresource and
ApiResourceExtras::from_apiresourcelist (the two loops are textually
identical in the source). -/
def applyVerb (ops : Operations) (verb : String) : Operations :=
  if verb = "create" then { ops with create := true }
  else if verb = "get" then { ops with get := true }
  else if verb = "list" then { ops with list := true }
  else if verb = "watch" then { ops with watch := true }
  else if verb = "delete" then { ops with delete := true }
  else if verb = "deletecollection" then { ops with delete_collection := true }
  else if verb = "update" then { ops with update := true }
  else if verb = "patch" then { ops with patch := true }
  else { ops with other := ops.other ++ [verb] }

/-- The verb loop: fold a raw verb list into Operations starting from
Operations::empty. -/
def foldVerbs (verbs : List String) : Operations :=
  verbs.foldl applyVerb Operations.empty

/-- Whether a string is one of the eight known verb names, tested in the
order of the match arms of the verb loop. -/
def isKnown (v : String) : Bool :=
  if v = "create" then true
  else if v = "get" then true
  else if v = "list" then true
  else if v = "watch" then true
  else if v = "delete" then true
  else if v = "deletecollection" then true
  else if v = "update" then true
  else if v = "patch" then true
  else false

/-- Body of ApiResource::from_apiresource after the group-version split
has produced the default group and default version. -/
def from_apiresourceCore (ar : APIResource) (default_group default_version : String) :
    ApiResource :=
  let group := ar.group.getD default_group
  let version := ar.version.getD default_version
  let kind := ar.kind
  let api_version := if group.isEmpty then version else group ++ "/" ++ version
  let plural_name := ar.name
  let scope := if ar.namespaced then Scope.Namespaced else Scope.Cluster
  let operations := foldVerbs ar.verbs
  { group := group
    version := version
    api_version := api_version
    kind := kind
    plural_name := plural_name
    scope := scope
    subresources := []
    operations := operations }

/-- ApiResource::from_apiresource.  The Rust match on the splitn result has
an unreachable arm for any other shape; that arm is embedded as none. -/
def from_apiresource (ar : APIResource) (group_version : String) : Option ApiResource :=
  match splitn2 group_version '/' with
  | [g, v] => some (from_apiresourceCore ar g v)
  | [v] => some (from_apiresourceCore ar "" v)
  | _ => none

/-- Whether a character is an English vowel, for the pluralization rule. -/
def isVowel (c : Char) : Bool :=
  c = 'a' || c = 'e' || c = 'i' || c = 'o' || c = 'u'

/-- Modelled from the spec: crate::api::metadata::to_plural is not under the
analyzed source; the spec gives the rule as trailing "s"/"x"/"ch"/"sh" adds
"es", trailing consonant plus "y" becomes "ies", anything else adds "s". -/
def to_plural (word : String) : String :=
  if word.endsWith "s" || word.endsWith "x" || word.endsWith "ch" || word.endsWith "sh" then
    word ++ "es"
  else
    match word.data.reverse with
    | 'y' :: c :: _ => if isVowel c then word ++ "s" else String.mk word.data.dropLast ++ "ies"
    | _ => word ++ "s"

/-- ASCII lowercasing, str::to_ascii_lowercase. -/
def toAsciiLower (s : String) : String :=
  String.mk (s.data.map Char.toLower)

/-- ApiResource::from_gvk. -/
def from_gvk (gvk : GroupVersionKind) : ApiResource :=
  let api_version :=
    if gvk.group = "" then gvk.version else gvk.group ++ "/" ++ gvk.version
  { group := gvk.group
    version := gvk.version
    api_version := api_version
    kind := gvk.kind
    plural_name := to_plural (toAsciiLower gvk.kind)
    scope := Scope.Namespaced
    subresources := ["status"]
    operations :=
      { create := true
        get := true
        list := true
        watch := true
        delete := true
        delete_collection := true
        update := true
        patch := true
        other := [] } }

/-- Rust str::strip_prefix on character lists: some remainder when the
second list starts with the first, none otherwise. -/
def stripPre : List Char → List Char → Option (List Char)
  | [], s => some s
  | _ :: _, [] => none
  | c :: cs, x :: xs => if x = c then stripPre cs xs else none

/-- Rust str::strip_prefix on strings. -/
def stripPreS (p s : String) : Option String :=
  (stripPre p.data s.data).map String.mk

/-- ApiResourceExtras from resource_details.rs. -/
structure ApiResourceExtras where
  scope : Scope
  subresources : List (ApiResource × ApiResourceExtras)
  operations : Operations

/-- The for-loop over list.resources inside from_apiresourcelist that
collects the subresource pairs: recur stands for the recursive call on the
full record name, gv for list.group_version, pre for the target name
followed by a slash.  The source writes the plural override as
api_resource.plural; the ApiResource field it refers to is plural_name. -/
def subLoop (recur : String → Option ApiResourceExtras) (gv : String) (pre : String) :
    List APIResource → Option (List (ApiResource × ApiResourceExtras))
  | [] => some []
  | res :: rest =>
    match stripPreS pre res.name with
    | none => subLoop recur gv pre rest
    | some sub =>
      match from_apiresource res gv with
      | none => none
      | some a =>
        match recur res.name with
        | none => none
        | some extra =>
          match subLoop recur gv pre rest with
          | none => none
          | some tail => some (({ a with plural_name := sub }, extra) :: tail)

/-- ApiResourceExtras::from_apiresourcelist with an explicit recursion-depth
budget (fuel); the expect panic when the name is absent is embedded as none,
and exhausted fuel is also none. -/
def fromListFuel : Nat → APIResourceList → String → Option ApiResourceExtras
  | 0, _, _ => none
  | fuel + 1, list, name =>
    match list.resources.find? (fun r => r.name == name) with
    | none => none
    | some ar =>
      let scope := if ar.namespaced then Scope.Namespaced else Scope.Cluster
      let operations := foldVerbs ar.verbs
      match subLoop (fromListFuel fuel list) list.group_version (name ++ "/") list.resources with
      | none => none
      | some subresources =>
        some { scope := scope, subresources := subresources, operations := operations }

/-- Length of the longest resource name in a record list. -/
def maxNameLen (rs : List APIResource) : Nat :=
  rs.foldr (fun r acc => max r.name.length acc) 0

/-- ApiResourceExtras::from_apiresourcelist.  Every recursive call in the
source strictly lengthens the target name, so a budget of one more than the
longest resource name in the list always suffices (proved below). -/
def from_apiresourcelist (list : APIResourceList) (name : String) : Option ApiResourceExtras :=
  fromListFuel (maxNameLen list.resources + 1) list name

/-- The subresource children the spec describes for a target name: one pair
per record whose name extends the target name by a slash and a suffix, in
input order, with the descriptor's plural name overwritten by the suffix
and the detail resolved recursively.  Stated from the spec's words, to be
compared with the result computed by from_apiresourcelist. -/
def childrenSpec (list : APIResourceList) (name : String) :
    List (ApiResource × ApiResourceExtras) :=
  list.resources.filterMap (fun res =>
    match stripPreS (name ++ "/") res.name with
    | none => none
    | some sub =>
      match from_apiresource res list.group_version, from_apiresourcelist list res.name with
      | some a, some extra => some ({ a with plural_name := sub }, extra)
      | _, _ => none)

/-- A JSON value, the shallow stand-in for serde_json::Value; an object is
an ordered field list. -/
inductive Json where
  | null
  | bool (b : Bool)
  | num (n : Int)
  | str (s : String)
  | arr (elems : List Json)
  | obj (fields : List (String × Json))

/-- Lookup of the first field with the given key in a JSON object field
list. -/
def lookupKV (k : String) : List (String × Json) → Option Json
  | [] => none
  | (k', v) :: rest => if k' = k then some v else lookupKV k rest

/-- Removal of the first field with the given key from a JSON object field
list. -/
def removeKV (k : String) : List (String × Json) → List (String × Json)
  | [] => []
  | (k', v) :: rest => if k' = k then rest else (k', v) :: removeKV k rest

/-- TypeMeta (declared in api/metadata.rs, outside the analyzed source):
the apiVersion and kind pair. -/
structure TypeMeta where
  api_version : String
  kind : String
deriving DecidableEq, Repr

/-- struct DynamicObject from dynamic.rs: optional flattened type fields,
metadata, and all other keys flattened.  ObjectMeta is external to the
analyzed source and the spec treats it as opaque, so the metadata value is
kept as the JSON value found under the metadata key; the flattened data is
an object field list. -/
structure DynamicObject where
  types : Option TypeMeta
  metadata : Json
  data : List (String × Json)

/-- Modelled from the spec: the serde serialization of DynamicObject (the
derive machinery is external to the analyzed source).  The flattened type
fields come first when present and are omitted entirely when absent, then
the metadata key, then the flattened remaining fields. -/
def DynamicObject.toJson (o : DynamicObject) : List (String × Json) :=
  (match o.types with
   | some t => [("apiVersion", Json.str t.api_version), ("kind", Json.str t.kind)]
   | none => []) ++ [("metadata", o.metadata)] ++ o.data

/-- Modelled from the spec: the serde deserialization of DynamicObject (the
derive machinery is external to the analyzed source).  The metadata key is
required; when both type fields are present as strings they populate the
TypeMeta, otherwise the type info is absent; every remaining field is kept
verbatim as flattened data. -/
def DynamicObject.fromJson (fields : List (String × Json)) : Option DynamicObject :=
  match lookupKV "metadata" fields with
  | none => none
  | some m =>
    match lookupKV "apiVersion" (removeKV "metadata" fields),
        lookupKV "kind" (removeKV "metadata" fields) with
    | some (Json.str av), some (Json.str kd) =>
      some { types := some { api_version := av, kind := kd }
             metadata := m
             data := removeKV "kind" (removeKV "apiVersion" (removeKV "metadata" fields)) }
    | _, _ => some { types := none, metadata := m, data := removeKV "metadata" fields }

/-- Modelled from the spec: buildPath of section 4.5 (the url_path and
Request construction code is outside the analyzed source).  Root segment
/api for the core group, else /apis/ and the group; then the version; then
the namespace segment when the descriptor is namespaced and a namespace is
given; then the plural name; then the object name and the subresource when
given. -/
def buildPath (d : ApiResource) (ns : Option String) (name : Option String)
    (sub : Option String) : String :=
  (if d.group = "" then "/api" else "/apis/" ++ d.group)
  ++ "/" ++ d.version
  ++ (match d.scope, ns with
      | Scope.Namespaced, some n => "/namespaces/" ++ n
      | _, _ => "")
  ++ "/" ++ d.plural_name
  ++ (match name with
      | some n => "/" ++ n
      | none => "")
  ++ (match sub with
      | some s => "/" ++ s
      | none => "")

/-! Concrete records used to instantiate theorems with hypotheses. -/

/-- A discovery record for the core services resource, with no group or
version override. -/
def arSvc : APIResource :=
  { group := none
    kind := "Service"
    name := "services"
    namespaced := true
    verbs := []
    version := none }

/-- A discovery record for pods. -/
def arPods : APIResource :=
  { group := none
    kind := "Pod"
    name := "pods"
    namespaced := true
    verbs := ["get", "list", "watch"]
    version := none }

/-- A discovery record for the pods status subresource. -/
def arPodsStatus : APIResource :=
  { group := none
    kind := "Pod"
    name := "pods/status"
    namespaced := true
    verbs := ["get", "patch"]
    version := none }

/-- A core-group resource list holding pods and its status subresource. -/
def podsList : APIResourceList :=
  { group_version := "v1", resources := [arPods, arPodsStatus] }

/-- A resource list holding pods only. -/
def podsOnlyList : APIResourceList :=
  { group_version := "v1", resources := [arPods] }

/-- A custom-group namespaced descriptor with plural name foos. -/
def fooDescr : ApiResource :=
  { group := "clux.dev"
    version := "v1"
    api_version := "clux.dev/v1"
    kind := "Foo"
    plural_name := "foos"
    scope := Scope.Namespaced
    subresources := []
    operations := Operations.empty }

/-- A core-group descriptor with plural name services. -/
def svcDescr : ApiResource :=
  { group := ""
    version := "v1"
    api_version := "v1"
    kind := "Service"
    plural_name := "services"
    scope := Scope.Namespaced
    subresources := []
    operations := Operations.empty }

/-- A concrete wire object with type fields, metadata, and an extra
payload field. -/
def sampleFields : List (String × Json) :=
  [("apiVersion", Json.str "v1"),
   ("kind", Json.str "Pod"),
   ("metadata", Json.obj [("name", Json.str "x")]),
   ("spec", Json.obj [("replicas", Json.num 3)])]

/-! Lemmas about the group-version split. -/

theorem splitFirstAux_of_not_mem (c : Char) (l : List Char) (h : c ∉ l) :
    splitFirstAux c l = none := by
  induction l with
  | nil => rfl
  | cons x xs ih =>
    simp only [List.mem_cons, not_or] at h
    unfold splitFirstAux
    rw [if_neg (fun he => h.1 he.symm), ih h.2]
    rfl

theorem splitFirstAux_append (c : Char) (a b : List Char) (h : c ∉ a) :
    splitFirstAux c (a ++ c :: b) = some (a, b) := by
  induction a with
  | nil => simp [splitFirstAux]
  | cons x xs ih =>
    simp only [List.mem_cons, not_or] at h
    simp only [List.cons_append]
    unfold splitFirstAux
    rw [if_neg (fun he => h.1 he.symm), ih h.2]
    rfl

theorem splitn2_shape (s : String) (c : Char) :
    (∃ v, splitn2 s c = [v]) ∨ ∃ g v, splitn2 s c = [g, v] := by
  unfold splitn2
  match h : splitFirstAux c s.data with
  | none => exact Or.inl ⟨s, rfl⟩
  | some (a, b) => exact Or.inr ⟨String.mk a, String.mk b, rfl⟩

theorem splitn2_no_sep (s : String) (c : Char) (h : c ∉ s.data) :
    splitn2 s c = [s] := by
  unfold splitn2
  rw [splitFirstAux_of_not_mem c s.data h]

theorem splitn2_sep (g v : String) (c : Char) (hg : c ∉ g.data) :
    splitn2 (g ++ String.singleton c ++ v) c = [g, v] := by
  unfold splitn2
  have hd : (g ++ String.singleton c ++ v).data = g.data ++ c :: v.data := by
    simp [String.data_append, String.singleton]
  rw [hd, splitFirstAux_append c g.data v.data hg]

theorem from_apiresource_isSome (ar : APIResource) (gv : String) :
    (from_apiresource ar gv).isSome = true := by
  unfold from_apiresource
  rcases splitn2_shape gv '/' with ⟨v, h⟩ | ⟨g, v, h⟩ <;> rw [h] <;> rfl

theorem from_apiresourceCore_api_version (ar : APIResource) (g v : String) :
    (from_apiresourceCore ar g v).api_version =
      if (from_apiresourceCore ar g v).group = "" then (from_apiresourceCore ar g v).version
      else (from_apiresourceCore ar g v).group ++ "/" ++ (from_apiresourceCore ar g v).version := by
  show (if (ar.group.getD g).isEmpty then ar.version.getD v
        else ar.group.getD g ++ "/" ++ ar.version.getD v) = _
  by_cases h : ar.group.getD g = "" <;>
    simp [String.isEmpty_iff, h, from_apiresourceCore]

/-- Claim C1: for every descriptor built by from_apiresource or from_gvk,
the api_version field equals the version field when the group field is
empty, and group slash version otherwise. -/
theorem C1_api_version_derived :
    (∀ ar gv r, from_apiresource ar gv = some r →
      r.api_version = if r.group = "" then r.version else r.group ++ "/" ++ r.version) ∧
    (∀ gvk, (from_gvk gvk).api_version =
      if (from_gvk gvk).group = "" then (from_gvk gvk).version
      else (from_gvk gvk).group ++ "/" ++ (from_gvk gvk).version) := by
  constructor
  · intro ar gv r h
    unfold from_apiresource at h
    rcases splitn2_shape gv '/' with ⟨v, hs⟩ | ⟨g, v, hs⟩ <;> rw [hs] at h <;>
      simp only [Option.some.injEq] at h <;> rw [← h] <;>
      exact from_apiresourceCore_api_version ..
  · intro gvk
    show (if gvk.group = "" then gvk.version else gvk.group ++ "/" ++ gvk.version) = _
    by_cases h : gvk.group = "" <;> simp [from_gvk, h]

/-- Witness for claim C1 at the core services record listed under v1. -/
theorem C1_api_version_derived_witness :
    (from_apiresourceCore arSvc "" "v1").api_version =
      if (from_apiresourceCore arSvc "" "v1").group = "" then (from_apiresourceCore arSvc "" "v1").version
      else (from_apiresourceCore arSvc "" "v1").group ++ "/" ++ (from_apiresourceCore arSvc "" "v1").version :=
  C1_api_version_derived.1 arSvc "v1" (from_apiresourceCore arSvc "" "v1") rfl

/-- Claim C6: from_gvk copies the kind verbatim, assumes Namespaced scope,
defaults the subresources to status only, and enables all eight operation
flags with no other verbs. -/
theorem C6_from_gvk_defaults :
    ∀ gvk, (from_gvk gvk).kind = gvk.kind ∧
      (from_gvk gvk).scope = Scope.Namespaced ∧
      (from_gvk gvk).subresources = ["status"] ∧
      (from_gvk gvk).operations =
        { create := true, get := true, list := true, watch := true, delete := true
          delete_collection := true, update := true, patch := true, other := [] } :=
  fun _ => ⟨rfl, rfl, rfl, rfl⟩

/-- Claim C9: from_apiresource never reaches the unreachable arm, because a
two-limited split always yields one or two pieces; a group-version string
with two separators keeps everything after the first slash as the default
version. -/
theorem C9_splitn_total :
    (∀ ar gv, (from_apiresource ar gv).isSome = true) ∧
    (∃ r, from_apiresource arSvc "a/b/c" = some r ∧ r.group = "a" ∧ r.version = "b/c") :=
  ⟨fun ar gv => from_apiresource_isSome ar gv, ⟨from_apiresourceCore arSvc "a" "b/c", rfl, rfl, rfl⟩⟩

/-- Claim C3: the group-version string is split on the first slash only,
with the core-group special case, and the record fields override the
defaults when present. -/
theorem C3_split_and_override :
    (∀ ar (g v : String), '/' ∉ g.data → '/' ∉ v.data →
      ∃ r, from_apiresource ar (g ++ "/" ++ v) = some r ∧
        r.group = ar.group.getD g ∧ r.version = ar.version.getD v) ∧
    (∀ ar (s : String), '/' ∉ s.data →
      ∃ r, from_apiresource ar s = some r ∧
        r.group = ar.group.getD "" ∧ r.version = ar.version.getD s) := by
  constructor
  · intro ar g v hg _hv
    have hsl : ("/" : String) = String.singleton '/' := rfl
    have hs : splitn2 (g ++ "/" ++ v) '/' = [g, v] := by
      rw [hsl]; exact splitn2_sep g v '/' hg
    refine ⟨from_apiresourceCore ar g v, ?_, rfl, rfl⟩
    unfold from_apiresource
    rw [hs]
  · intro ar s hsep
    have hs : splitn2 s '/' = [s] := splitn2_no_sep s '/' hsep
    refine ⟨from_apiresourceCore ar "" s, ?_, rfl, rfl⟩
    unfold from_apiresource
    rw [hs]

/-- Witness for claim C3 at the apps/v1 and core v1 group versions. -/
theorem C3_split_and_override_witness :
    (∃ r, from_apiresource arSvc ("apps" ++ "/" ++ "v1") = some r ∧
      r.group = arSvc.group.getD "apps" ∧ r.version = arSvc.version.getD "v1") ∧
    (∃ r, from_apiresource arSvc "v1" = some r ∧
      r.group = arSvc.group.getD "" ∧ r.version = arSvc.version.getD "v1") :=
  ⟨C3_split_and_override.1 arSvc "apps" "v1" (by decide) (by decide),
   C3_split_and_override.2 arSvc "v1" (by decide)⟩

/-! Lemmas about the verb loop. -/

theorem applyVerb_create (ops : Operations) (v : String) :
    (applyVerb ops v).create = if v = "create" then true else ops.create := by
  unfold applyVerb; split_ifs <;> simp_all

theorem applyVerb_get (ops : Operations) (v : String) :
    (applyVerb ops v).get = if v = "get" then true else ops.get := by
  unfold applyVerb; split_ifs <;> simp_all

theorem applyVerb_list (ops : Operations) (v : String) :
    (applyVerb ops v).list = if v = "list" then true else ops.list := by
  unfold applyVerb; split_ifs <;> simp_all

theorem applyVerb_watch (ops : Operations) (v : String) :
    (applyVerb ops v).watch = if v = "watch" then true else ops.watch := by
  unfold applyVerb; split_ifs <;> simp_all

theorem applyVerb_delete (ops : Operations) (v : String) :
    (applyVerb ops v).delete = if v = "delete" then true else ops.delete := by
  unfold applyVerb; split_ifs <;> simp_all

theorem applyVerb_delete_collection (ops : Operations) (v : String) :
    (applyVerb ops v).delete_collection =
      if v = "deletecollection" then true else ops.delete_collection := by
  unfold applyVerb; split_ifs <;> simp_all

theorem applyVerb_update (ops : Operations) (v : String) :
    (applyVerb ops v).update = if v = "update" then true else ops.update := by
  unfold applyVerb; split_ifs <;> simp_all

theorem applyVerb_patch (ops : Operations) (v : String) :
    (applyVerb ops v).patch = if v = "patch" then true else ops.patch := by
  unfold applyVerb; split_ifs <;> simp_all

theorem applyVerb_other (ops : Operations) (v : String) :
    (applyVerb ops v).other = if isKnown v then ops.other else ops.other ++ [v] := by
  unfold applyVerb isKnown; split_ifs <;> simp_all

theorem foldl_create (vs : List String) (ops : Operations) :
    ((vs.foldl applyVerb ops).create = true) ↔ (ops.create = true ∨ "create" ∈ vs) := by
  induction vs generalizing ops with
  | nil => simp
  | cons v vs ih =>
    rw [List.foldl_cons, ih, applyVerb_create]
    by_cases h : v = "create"
    · subst h; simp
    · have h' : ¬ (("create" : String) = v) := fun hh => h hh.symm
      simp [h, h', List.mem_cons]

theorem foldl_get (vs : List String) (ops : Operations) :
    ((vs.foldl applyVerb ops).get = true) ↔ (ops.get = true ∨ "get" ∈ vs) := by
  induction vs generalizing ops with
  | nil => simp
  | cons v vs ih =>
    rw [List.foldl_cons, ih, applyVerb_get]
    by_cases h : v = "get"
    · subst h; simp
    · have h' : ¬ (("get" : String) = v) := fun hh => h hh.symm
      simp [h, h', List.mem_cons]

theorem foldl_list (vs : List String) (ops : Operations) :
    ((vs.foldl applyVerb ops).list = true) ↔ (ops.list = true ∨ "list" ∈ vs) := by
  induction vs generalizing ops with
  | nil => simp
  | cons v vs ih =>
    rw [List.foldl_cons, ih, applyVerb_list]
    by_cases h : v = "list"
    · subst h; simp
    · have h' : ¬ (("list" : String) = v) := fun hh => h hh.symm
      simp [h, h', List.mem_cons]

theorem foldl_watch (vs : List String) (ops : Operations) :
    ((vs.foldl applyVerb ops).watch = true) ↔ (ops.watch = true ∨ "watch" ∈ vs) := by
  induction vs generalizing ops with
  | nil => simp
  | cons v vs ih =>
    rw [List.foldl_cons, ih, applyVerb_watch]
    by_cases h : v = "watch"
    · subst h; simp
    · have h' : ¬ (("watch" : String) = v) := fun hh => h hh.symm
      simp [h, h', List.mem_cons]

theorem foldl_delete (vs : List String) (ops : Operations) :
    ((vs.foldl applyVerb ops).delete = true) ↔ (ops.delete = true ∨ "delete" ∈ vs) := by
  induction vs generalizing ops with
  | nil => simp
  | cons v vs ih =>
    rw [List.foldl_cons, ih, applyVerb_delete]
    by_cases h : v = "delete"
    · subst h; simp
    · have h' : ¬ (("delete" : String) = v) := fun hh => h hh.symm
      simp [h, h', List.mem_cons]

theorem foldl_delete_collection (vs : List String) (ops : Operations) :
    ((vs.foldl applyVerb ops).delete_collection = true) ↔
      (ops.delete_collection = true ∨ "deletecollection" ∈ vs) := by
  induction vs generalizing ops with
  | nil => simp
  | cons v vs ih =>
    rw [List.foldl_cons, ih, applyVerb_delete_collection]
    by_cases h : v = "deletecollection"
    · subst h; simp
    · have h' : ¬ (("deletecollection" : String) = v) := fun hh => h hh.symm
      simp [h, h', List.mem_cons]

theorem foldl_update (vs : List String) (ops : Operations) :
    ((vs.foldl applyVerb ops).update = true) ↔ (ops.update = true ∨ "update" ∈ vs) := by
  induction vs generalizing ops with
  | nil => simp
  | cons v vs ih =>
    rw [List.foldl_cons, ih, applyVerb_update]
    by_cases h : v = "update"
    · subst h; simp
    · have h' : ¬ (("update" : String) = v) := fun hh => h hh.symm
      simp [h, h', List.mem_cons]

theorem foldl_patch (vs : List String) (ops : Operations) :
    ((vs.foldl applyVerb ops).patch = true) ↔ (ops.patch = true ∨ "patch" ∈ vs) := by
  induction vs generalizing ops with
  | nil => simp
  | cons v vs ih =>
    rw [List.foldl_cons, ih, applyVerb_patch]
    by_cases h : v = "patch"
    · subst h; simp
    · have h' : ¬ (("patch" : String) = v) := fun hh => h hh.symm
      simp [h, h', List.mem_cons]

theorem foldl_other (vs : List String) (ops : Operations) :
    (vs.foldl applyVerb ops).other = ops.other ++ vs.filter (fun v => !(isKnown v)) := by
  induction vs generalizing ops with
  | nil => simp
  | cons v vs ih =>
    rw [List.foldl_cons, ih, applyVerb_other]
    by_cases h : isKnown v = true
    · simp [h, List.filter_cons]
    · simp only [Bool.not_eq_true] at h
      simp [h, List.filter_cons, List.append_assoc]

/-- Claim C2: folding a verb list sets exactly the flags whose verb name
occurs in the list, with deletecollection mapping to delete_collection,
keeps every non-matching string in input order in other, and no string
both sets a flag and lands in other. -/
theorem C2_verb_folding : ∀ verbs : List String,
    ((foldVerbs verbs).create = true ↔ "create" ∈ verbs) ∧
    ((foldVerbs verbs).get = true ↔ "get" ∈ verbs) ∧
    ((foldVerbs verbs).list = true ↔ "list" ∈ verbs) ∧
    ((foldVerbs verbs).watch = true ↔ "watch" ∈ verbs) ∧
    ((foldVerbs verbs).delete = true ↔ "delete" ∈ verbs) ∧
    ((foldVerbs verbs).delete_collection = true ↔ "deletecollection" ∈ verbs) ∧
    ((foldVerbs verbs).update = true ↔ "update" ∈ verbs) ∧
    ((foldVerbs verbs).patch = true ↔ "patch" ∈ verbs) ∧
    (foldVerbs verbs).other = verbs.filter (fun v => !(isKnown v)) ∧
    (∀ v, v ∈ (foldVerbs verbs).other → isKnown v = false) := by
  intro verbs
  have hother : (foldVerbs verbs).other = verbs.filter (fun v => !(isKnown v)) := by
    unfold foldVerbs
    rw [foldl_other]
    simp [Operations.empty]
  refine ⟨?_, ?_, ?_, ?_, ?_, ?_, ?_, ?_, hother, ?_⟩
  · unfold foldVerbs; rw [foldl_create]; simp [Operations.empty]
  · unfold foldVerbs; rw [foldl_get]; simp [Operations.empty]
  · unfold foldVerbs; rw [foldl_list]; simp [Operations.empty]
  · unfold foldVerbs; rw [foldl_watch]; simp [Operations.empty]
  · unfold foldVerbs; rw [foldl_delete]; simp [Operations.empty]
  · unfold foldVerbs; rw [foldl_delete_collection]; simp [Operations.empty]
  · unfold foldVerbs; rw [foldl_update]; simp [Operations.empty]
  · unfold foldVerbs; rw [foldl_patch]; simp [Operations.empty]
  · intro v hv
    rw [hother] at hv
    have := List.of_mem_filter hv
    simpa using this

/-- Witness for claim C2 at a list holding one known and one unknown verb. -/
theorem C2_verb_folding_witness :
    isKnown "zap" = false ∧
    ((foldVerbs ["get", "zap"]).get = true ↔ "get" ∈ ["get", "zap"]) :=
  ⟨(C2_verb_folding ["get", "zap"]).2.2.2.2.2.2.2.2.2 "zap" (by decide),
   (C2_verb_folding ["get", "zap"]).2.1⟩

/-- Claim C7: path building with the custom-group namespaced descriptor and
with the core-group descriptor produces the documented paths. -/
theorem C7_build_paths :
    buildPath fooDescr (some "myns") none none = "/apis/clux.dev/v1/namespaces/myns/foos" ∧
    buildPath fooDescr (some "myns") (some "baz") none = "/apis/clux.dev/v1/namespaces/myns/foos/baz" ∧
    buildPath svcDescr none none none = "/api/v1/services" := by
  refine ⟨?_, ?_, ?_⟩ <;> rfl

/-! Lemmas about the recursive subresource resolution. -/

theorem mem_le_maxNameLen (r : APIResource) (rs : List APIResource) (h : r ∈ rs) :
    r.name.length ≤ maxNameLen rs := by
  induction rs with
  | nil => exact absurd h (List.not_mem_nil r)
  | cons x xs ih =>
    unfold maxNameLen
    rcases List.mem_cons.mp h with he | hm
    · subst he; exact Nat.le_max_left ..
    · exact Nat.le_trans (ih hm) (Nat.le_max_right ..)

theorem find?_name_none_of_long (rs : List APIResource) (name : String)
    (h : maxNameLen rs < name.length) :
    rs.find? (fun r => r.name == name) = none := by
  cases hf : rs.find? (fun r => r.name == name) with
  | none => rfl
  | some ar =>
    exfalso
    have hmem := List.mem_of_find?_eq_some hf
    have hp := List.find?_some hf
    have he : ar.name = name := eq_of_beq hp
    have := mem_le_maxNameLen ar rs hmem
    rw [he] at this
    omega

theorem stripPre_length (p s r : List Char) (h : stripPre p s = some r) :
    s.length = p.length + r.length := by
  induction p generalizing s with
  | nil =>
    unfold stripPre at h
    cases h
    simp
  | cons c cs ih =>
    cases s with
    | nil => exact absurd h (by unfold stripPre; simp)
    | cons x xs =>
      unfold stripPre at h
      by_cases hx : x = c
      · rw [if_pos hx] at h
        have hrec := ih xs h
        simp only [List.length_cons]
        omega
      · rw [if_neg hx] at h
        cases h

theorem stripPreS_length (p s sub : String) (h : stripPreS p s = some sub) :
    s.length = p.length + sub.length := by
  unfold stripPreS at h
  cases hr : stripPre p.data s.data with
  | none => rw [hr] at h; cases h
  | some r =>
    rw [hr] at h
    cases h
    exact stripPre_length p.data s.data r hr

theorem stripPreS_slash_length (name s sub : String)
    (h : stripPreS (name ++ "/") s = some sub) :
    s.length = name.length + 1 + sub.length := by
  have := stripPreS_length (name ++ "/") s sub h
  have hl : (name ++ "/").length = name.length + 1 := by
    show (name ++ "/").data.length = name.data.length + 1
    rw [String.data_append, List.length_append]
    rfl
  rw [hl] at this
  exact this

theorem subLoop_congr (f g : String → Option ApiResourceExtras) (gv pre : String)
    (rs : List APIResource)
    (h : ∀ res ∈ rs, ∀ sub, stripPreS pre res.name = some sub → f res.name = g res.name) :
    subLoop f gv pre rs = subLoop g gv pre rs := by
  induction rs with
  | nil => rfl
  | cons res rest ih =>
    have hrest : ∀ r ∈ rest, ∀ sub, stripPreS pre r.name = some sub → f r.name = g r.name :=
      fun r hr => h r (List.mem_cons_of_mem _ hr)
    unfold subLoop
    cases hs : stripPreS pre res.name with
    | none => exact ih hrest
    | some sub =>
      rw [h res (List.mem_cons_self ..) sub hs, ih hrest]

theorem fromListFuel_long_none (list : APIResourceList) (name : String)
    (h : maxNameLen list.resources < name.length) (f : Nat) :
    fromListFuel f list name = none := by
  cases f with
  | zero => rfl
  | succ f' =>
    unfold fromListFuel
    rw [find?_name_none_of_long list.resources name h]

theorem fromListFuel_irrel (f1 f2 : Nat) (list : APIResourceList) (name : String)
    (h1 : maxNameLen list.resources + 1 ≤ f1 + name.length)
    (h2 : maxNameLen list.resources + 1 ≤ f2 + name.length) :
    fromListFuel f1 list name = fromListFuel f2 list name := by
  induction f1 generalizing f2 name with
  | zero =>
    have hlong : maxNameLen list.resources < name.length := by omega
    rw [fromListFuel_long_none list name hlong f2]
    rfl
  | succ f1' ih =>
    cases f2 with
    | zero =>
      have hlong : maxNameLen list.resources < name.length := by omega
      rw [fromListFuel_long_none list name hlong (f1' + 1)]
      rfl
    | succ f2' =>
      unfold fromListFuel
      cases hf : list.resources.find? (fun r => r.name == name) with
      | none => rfl
      | some ar =>
        have hcong : ∀ res ∈ list.resources, ∀ sub,
            stripPreS (name ++ "/") res.name = some sub →
            fromListFuel f1' list res.name = fromListFuel f2' list res.name := by
          intro res hm sub hs
          have hlen := stripPreS_slash_length name res.name sub hs
          exact ih f2' res.name (by omega) (by omega)
        rw [subLoop_congr (fromListFuel f1' list) (fromListFuel f2' list)
          list.group_version (name ++ "/") list.resources hcong]

theorem subLoop_isSome (recur : String → Option ApiResourceExtras) (gv pre : String)
    (rs : List APIResource)
    (h : ∀ res ∈ rs, ∀ sub, stripPreS pre res.name = some sub →
      (from_apiresource res gv).isSome = true ∧ (recur res.name).isSome = true) :
    (subLoop recur gv pre rs).isSome = true := by
  induction rs with
  | nil => rfl
  | cons res rest ih =>
    have hrest : ∀ r ∈ rest, ∀ sub, stripPreS pre r.name = some sub →
        (from_apiresource r gv).isSome = true ∧ (recur r.name).isSome = true :=
      fun r hr => h r (List.mem_cons_of_mem _ hr)
    unfold subLoop
    cases hs : stripPreS pre res.name with
    | none => exact ih hrest
    | some sub =>
      obtain ⟨h1, h2⟩ := h res (List.mem_cons_self ..) sub hs
      cases ha : from_apiresource res gv with
      | none => rw [ha] at h1; cases h1
      | some a =>
        cases he : recur res.name with
        | none => rw [he] at h2; cases h2
        | some extra =>
          have ht := ih hrest
          cases hl : subLoop recur gv pre rest with
          | none => rw [hl] at ht; cases ht
          | some tail => rfl

theorem fromListFuel_isSome (f : Nat) (list : APIResourceList) (name : String)
    (h : maxNameLen list.resources + 1 ≤ f + name.length)
    (hf : (list.resources.find? (fun r => r.name == name)).isSome = true) :
    (fromListFuel f list name).isSome = true := by
  induction f generalizing name with
  | zero =>
    exfalso
    obtain ⟨ar, har⟩ := Option.isSome_iff_exists.mp hf
    have hmem := List.mem_of_find?_eq_some har
    have hp := List.find?_some har
    have he : ar.name = name := eq_of_beq hp
    have := mem_le_maxNameLen ar list.resources hmem
    rw [he] at this
    omega
  | succ f' ih =>
    unfold fromListFuel
    obtain ⟨ar, har⟩ := Option.isSome_iff_exists.mp hf
    rw [har]
    have hsl : (subLoop (fromListFuel f' list) list.group_version (name ++ "/")
        list.resources).isSome = true := by
      apply subLoop_isSome
      intro res hm sub hs
      refine ⟨from_apiresource_isSome res list.group_version, ?_⟩
      have hlen := stripPreS_slash_length name res.name sub hs
      apply ih res.name (by omega)
      exact List.find?_isSome.mpr ⟨res, hm, beq_self_eq_true res.name⟩
    cases hl : subLoop (fromListFuel f' list) list.group_version (name ++ "/")
        list.resources with
    | none => rw [hl] at hsl; cases hsl
    | some subs => rfl

theorem filterMapCongr {α β : Type _} (f g : α → Option β) (l : List α)
    (h : ∀ a ∈ l, f a = g a) : l.filterMap f = l.filterMap g := by
  induction l with
  | nil => rfl
  | cons x xs ih =>
    rw [List.filterMap_cons, List.filterMap_cons,
      h x (List.mem_cons_self ..), ih (fun a ha => h a (List.mem_cons_of_mem _ ha))]

theorem subLoop_eq_filterMap (recur : String → Option ApiResourceExtras) (gv pre : String)
    (rs : List APIResource)
    (h : ∀ res ∈ rs, ∀ sub, stripPreS pre res.name = some sub →
      (from_apiresource res gv).isSome = true ∧ (recur res.name).isSome = true) :
    subLoop recur gv pre rs = some (rs.filterMap (fun res =>
      match stripPreS pre res.name with
      | none => none
      | some sub =>
        match from_apiresource res gv, recur res.name with
        | some a, some extra => some ({ a with plural_name := sub }, extra)
        | _, _ => none)) := by
  induction rs with
  | nil => rfl
  | cons res rest ih =>
    have hrest : ∀ r ∈ rest, ∀ sub, stripPreS pre r.name = some sub →
        (from_apiresource r gv).isSome = true ∧ (recur r.name).isSome = true :=
      fun r hr => h r (List.mem_cons_of_mem _ hr)
    unfold subLoop
    rw [List.filterMap_cons]
    cases hs : stripPreS pre res.name with
    | none => exact ih hrest
    | some sub =>
      obtain ⟨h1, h2⟩ := h res (List.mem_cons_self ..) sub hs
      cases ha : from_apiresource res gv with
      | none => rw [ha] at h1; cases h1
      | some a =>
        cases he : recur res.name with
        | none => rw [he] at h2; cases h2
        | some extra =>
          rw [ih hrest]

/-- Claim C5: when the target name is absent from the resource list, the
resolution fails (the source panic is embedded as none); no value is
silently defaulted. -/
theorem C5_not_found :
    ∀ (list : APIResourceList) (name : String),
      list.resources.find? (fun r => r.name == name) = none →
      from_apiresourcelist list name = none := by
  intro list name h
  show fromListFuel (maxNameLen list.resources + 1) list name = none
  unfold fromListFuel
  rw [h]

/-- Witness for claim C5 at a list that contains pods but not the target. -/
theorem C5_not_found_witness : from_apiresourcelist podsList "nope" = none :=
  C5_not_found podsList "nope" (by decide)

/-- Claim C10: from_apiresourcelist terminates on every finite list; any
recursion budget of at least one more than the longest resource name in the
list (minus the length already consumed by the target name) computes the
fixed answer, so the recursion depth is bounded by the longest name. -/
theorem C10_termination_depth :
    ∀ (fuel : Nat) (list : APIResourceList) (name : String),
      maxNameLen list.resources + 1 ≤ fuel + name.length →
      fromListFuel fuel list name = from_apiresourcelist list name := by
  intro fuel list name h
  exact fromListFuel_irrel fuel (maxNameLen list.resources + 1) list name h (by omega)

/-- Witness for claim C10 at the pods list with a budget of eight. -/
theorem C10_termination_depth_witness :
    fromListFuel 8 podsList "pods" = from_apiresourcelist podsList "pods" :=
  C10_termination_depth 8 podsList "pods" (by decide)

/-- Claim C4: when the target is found, resolution produces exactly one
child pair per other record extending the target name by a slash, in input
order, with the plural name overwritten by the stripped suffix and the
detail resolved recursively; with no such record there are no children. -/
theorem C4_subresource_children :
    ∀ (list : APIResourceList) (name : String) (ar : APIResource),
      list.resources.find? (fun r => r.name == name) = some ar →
      ∃ e, from_apiresourcelist list name = some e ∧
        e.subresources = childrenSpec list name ∧
        ((∀ res ∈ list.resources, stripPreS (name ++ "/") res.name = none) →
          e.subresources = []) := by
  intro list name ar hfind
  have hcond : ∀ res ∈ list.resources, ∀ sub,
      stripPreS (name ++ "/") res.name = some sub →
      (from_apiresource res list.group_version).isSome = true ∧
      (fromListFuel (maxNameLen list.resources) list res.name).isSome = true := by
    intro res hm sub hs
    have hlen := stripPreS_slash_length name res.name sub hs
    refine ⟨from_apiresource_isSome res list.group_version, ?_⟩
    apply fromListFuel_isSome (maxNameLen list.resources) list res.name (by omega)
    exact List.find?_isSome.mpr ⟨res, hm, beq_self_eq_true res.name⟩
  have hsl := subLoop_eq_filterMap (fromListFuel (maxNameLen list.resources) list)
    list.group_version (name ++ "/") list.resources hcond
  have hchild : list.resources.filterMap (fun res =>
      match stripPreS (name ++ "/") res.name with
      | none => none
      | some sub =>
        match from_apiresource res list.group_version,
            fromListFuel (maxNameLen list.resources) list res.name with
        | some a, some extra => some ({ a with plural_name := sub }, extra)
        | _, _ => none) = childrenSpec list name := by
    unfold childrenSpec
    apply filterMapCongr
    intro res hm
    cases hs : stripPreS (name ++ "/") res.name with
    | none => rfl
    | some sub =>
      have hlen := stripPreS_slash_length name res.name sub hs
      have hirr : fromListFuel (maxNameLen list.resources) list res.name =
          from_apiresourcelist list res.name := by
        show _ = fromListFuel (maxNameLen list.resources + 1) list res.name
        exact fromListFuel_irrel _ _ list res.name (by omega) (by omega)
      rw [hirr]
  refine ⟨{ scope := if ar.namespaced then Scope.Namespaced else Scope.Cluster
            subresources := childrenSpec list name
            operations := foldVerbs ar.verbs }, ?_, rfl, ?_⟩
  · show fromListFuel (maxNameLen list.resources + 1) list name = _
    unfold fromListFuel
    rw [hfind, hsl, hchild]
  · intro hnone
    show childrenSpec list name = []
    unfold childrenSpec
    rw [List.filterMap_eq_nil_iff]
    intro res hm
    rw [hnone res hm]

/-! Lemmas about JSON object field lists. -/

theorem perm_cons_removeKV (k : String) (v : Json) (f : List (String × Json))
    (h : lookupKV k f = some v) :
    List.Perm f ((k, v) :: removeKV k f) := by
  induction f with
  | nil => cases h
  | cons kv rest ih =>
    obtain ⟨k', v'⟩ := kv
    unfold lookupKV at h
    unfold removeKV
    by_cases hk : k' = k
    · rw [if_pos hk] at h
      cases h
      rw [if_pos hk]
      subst hk
      exact List.Perm.refl _
    · rw [if_neg hk] at h
      rw [if_neg hk]
      exact ((ih h).cons _).trans (List.Perm.swap (k, v) (k', v') (removeKV k rest))

theorem lookupKV_removeKV_ne (k1 k2 : String) (f : List (String × Json)) (h : k1 ≠ k2) :
    lookupKV k1 (removeKV k2 f) = lookupKV k1 f := by
  induction f with
  | nil => rfl
  | cons kv rest ih =>
    obtain ⟨k', v'⟩ := kv
    unfold removeKV
    by_cases h2 : k' = k2
    · rw [if_pos h2]
      have hne : ¬ (k' = k1) := by
        rw [h2]
        exact fun he => h he.symm
      show lookupKV k1 rest = lookupKV k1 ((k', v') :: rest)
      have hu : lookupKV k1 ((k', v') :: rest) =
          if k' = k1 then some v' else lookupKV k1 rest := rfl
      rw [hu, if_neg hne]
    · rw [if_neg h2]
      show lookupKV k1 ((k', v') :: removeKV k2 rest) = lookupKV k1 ((k', v') :: rest)
      have hu1 : lookupKV k1 ((k', v') :: removeKV k2 rest) =
          if k' = k1 then some v' else lookupKV k1 (removeKV k2 rest) := rfl
      have hu2 : lookupKV k1 ((k', v') :: rest) =
          if k' = k1 then some v' else lookupKV k1 rest := rfl
      rw [hu1, hu2]
      by_cases h1 : k' = k1
      · rw [if_pos h1, if_pos h1]
      · rw [if_neg h1, if_neg h1]
        exact ih

/-- Claim C8: deserializing a wire object with a metadata field and type
fields either both present as strings or both absent, then serializing the
result, reproduces exactly the same collection of top-level keys and
values; absent type fields stay absent. -/
theorem C8_roundtrip :
    ∀ (fields : List (String × Json)) (m : Json),
      lookupKV "metadata" fields = some m →
      ((∃ av kd, lookupKV "apiVersion" (removeKV "metadata" fields) = some (Json.str av) ∧
          lookupKV "kind" (removeKV "metadata" fields) = some (Json.str kd)) ∨
        (lookupKV "apiVersion" (removeKV "metadata" fields) = none ∧
          lookupKV "kind" (removeKV "metadata" fields) = none)) →
      ∃ o, DynamicObject.fromJson fields = some o ∧
        List.Perm (DynamicObject.toJson o) fields := by
  intro fields m hm hty
  rcases hty with ⟨av, kd, hav, hkd⟩ | ⟨hav, hkd⟩
  · refine ⟨{ types := some { api_version := av, kind := kd }
              metadata := m
              data := removeKV "kind" (removeKV "apiVersion" (removeKV "metadata" fields)) },
      ?_, ?_⟩
    · unfold DynamicObject.fromJson
      rw [hm, hav, hkd]
    · have hkd' : lookupKV "kind" (removeKV "apiVersion" (removeKV "metadata" fields)) =
          some (Json.str kd) := by
        rw [lookupKV_removeKV_ne "kind" "apiVersion" (removeKV "metadata" fields) (by decide)]
        exact hkd
      have p1 := perm_cons_removeKV "metadata" m fields hm
      have p2 := perm_cons_removeKV "apiVersion" (Json.str av) (removeKV "metadata" fields) hav
      have p3 := perm_cons_removeKV "kind" (Json.str kd)
        (removeKV "apiVersion" (removeKV "metadata" fields)) hkd'
      have q : List.Perm fields
          (("metadata", m) :: ("apiVersion", Json.str av) :: ("kind", Json.str kd) ::
            removeKV "kind" (removeKV "apiVersion" (removeKV "metadata" fields))) :=
        p1.trans ((p2.trans (p3.cons _)).cons _)
      show List.Perm (("apiVersion", Json.str av) :: ("kind", Json.str kd) ::
        ("metadata", m) :: removeKV "kind" (removeKV "apiVersion" (removeKV "metadata" fields)))
        fields
      have s1 := (List.Perm.swap ("metadata", m) ("kind", Json.str kd)
        (removeKV "kind" (removeKV "apiVersion" (removeKV "metadata" fields)))).cons
        ("apiVersion", Json.str av)
      have s2 := List.Perm.swap ("metadata", m) ("apiVersion", Json.str av)
        (("kind", Json.str kd) ::
          removeKV "kind" (removeKV "apiVersion" (removeKV "metadata" fields)))
      exact (s1.trans s2).trans q.symm
  · refine ⟨{ types := none, metadata := m, data := removeKV "metadata" fields }, ?_, ?_⟩
    · unfold DynamicObject.fromJson
      rw [hm, hav, hkd]
    · show List.Perm (("metadata", m) :: removeKV "metadata" fields) fields
      exact (perm_cons_removeKV "metadata" m fields hm).symm

/-- Witness for claim C8 at a concrete wire object with type fields,
metadata, and one payload field. -/
theorem C8_roundtrip_witness :
    ∃ o, DynamicObject.fromJson sampleFields = some o ∧
      List.Perm (DynamicObject.toJson o) sampleFields :=
  C8_roundtrip sampleFields (Json.obj [("name", Json.str "x")]) rfl
    (Or.inl ⟨"v1", "Pod", rfl, rfl⟩)

/-- Witness for claim C4 at a list holding pods and its status
subresource. -/
theorem C4_subresource_children_witness :
    ∃ e, from_apiresourcelist podsList "pods" = some e ∧
      e.subresources = childrenSpec podsList "pods" ∧
      ((∀ res ∈ podsList.resources, stripPreS ("pods" ++ "/") res.name = none) →
        e.subresources = []) :=
  C4_subresource_children podsList "pods" arPods (by decide)

end KubeDyn
